import Mathlib

set_option maxHeartbeats 1000000

/- Verification of the youtube-dl-gui core pipeline (src/core.py): the URL parser
   `get_video_id`, the progress adapter (`YouTubeDLStatus`, `progress_hook`), the
   downloader configuration of `download_audio`, the thumbnail cropper
   `crop_thumbnail`, the metadata normalizer `cleanup_metadata`, and the
   orchestrating `download` function.  Effectful library calls (yt-dlp, mutagen,
   PIL, the filesystem) are embedded by making their outcomes explicit values;
   every pure computation is translated directly from the source. -/

/-! ## Progress adapter (core.py: `YouTubeDLStatus`, `download_audio.progress_hook`) -/

/-- The closed status vocabulary of the external downloader
    (core.py `class YouTubeDLStatus(str, Enum)`). -/
inductive YouTubeDLStatus
  | downloading
  | finished
  | error
deriving DecidableEq

/-- core.py `class YouTubeDLProgress(NamedTuple)`. -/
structure YouTubeDLProgress where
  status : YouTubeDLStatus
  completion_percentage : Option String
deriving DecidableEq

/-- Enum lookup by value: `YouTubeDLStatus(value)` succeeds exactly on the three
    member values and raises `ValueError` otherwise (modelled as `none`); the
    argument is `progress.get('status')`, which is `none` for a missing key. -/
def statusOfString : Option String → Option YouTubeDLStatus
  | none => none
  | some s =>
    if s = "downloading" then some .downloading
    else if s = "finished" then some .finished
    else if s = "error" then some .error
    else none

/-- First-match association-list lookup, modelling `dict.get(key)` on the raw
    progress mapping (values are modelled as strings, which is what the two
    extracted keys carry). -/
def lookupKey (m : List (String × String)) (k : String) : Option String :=
  (m.find? (fun kv => kv.1 == k)).map (fun kv => kv.2)

/-- core.py `download_audio.progress_hook`: builds a `YouTubeDLProgress` from the
    raw mapping, reading only the `'status'` and `'_percent_str'` keys; `none`
    models the `ValueError` raised by `YouTubeDLStatus(...)` on a status keyword
    outside the enum. -/
def progress_hook (m : List (String × String)) : Option YouTubeDLProgress :=
  (statusOfString (lookupKey m "status")).map
    (fun st => { status := st, completion_percentage := lookupKey m "_percent_str" })

/-! ## Paths configured and returned by `download_audio` (core.py lines 82-109) -/

/-- The `'outtmpl'` option of core.py `download_audio`: the f-string
    `f'{download_folder}\\%(id)s.%(ext)s'`, i.e. the folder followed by a
    hard-coded backslash and the id/extension template. -/
def outtmpl (download_folder : String) : String :=
  download_folder ++ "\\" ++ "%(id)s.%(ext)s"

/-- The `%(id)s.%(ext)s` part of the naming convention, instantiated at a
    video id and an extension. -/
def tmpl_filename (video_id ext : String) : String :=
  video_id ++ "." ++ ext

/-- The return value of core.py `download_audio`:
    `download_folder / f'{video_id}.{codec}'` with `codec = 'mp3'` - a pathlib
    join, i.e. the platform path separator `sep` between folder and file name. -/
def audio_path (sep : Char) (download_folder video_id : String) : String :=
  download_folder ++ String.singleton sep ++ tmpl_filename video_id "mp3"

/-! ## Pipeline orchestrator (core.py `download`, lines 174-200) -/

/-- core.py `download.youtube_dl_progress_changed`: the status text forwarded to
    `status_changed` for one progress event.  A missing percentage renders as
    Python's `str(None)` inside the f-string. -/
def progressMsg (p : YouTubeDLProgress) : String :=
  match p.status with
  | .downloading =>
    "Downloading " ++ (match p.completion_percentage with
                       | some s => s
                       | none => "None")
  | .finished => "Converting"
  | .error => "Error occurred"

/-- Outcomes of the effectful stages of one `download(...)` call: the progress
    events the external downloader feeds to the hook, the outcome of
    `ydl.download`, of `crop_thumbnail` and of `cleanup_metadata` (which returns
    `(title, artist)`).  `Except.error e` models the stage raising the exception
    value `e`. -/
structure StageEffects (ε : Type) where
  dl_events : List YouTubeDLProgress
  dl_outcome : Except ε Unit
  crop_outcome : Except ε Unit
  cleanup_outcome : Except ε (String × String)

/-- A successful result of `download`: the mp3 path and, when requested,
    the `(title, artist)` pair. -/
structure DownloadOk where
  mp3_path : String
  title_artist : Option (String × String)
deriving DecidableEq

/-- core.py `download`: emits `status_changed` messages in source order and
    stops at the first stage that raises, propagating that error value
    unchanged.  The first component collects the `status_changed` calls in
    order; the second is the call's outcome. -/
def download {ε : Type} (eff : StageEffects ε) (sep : Char)
    (video_id download_folder : String) (return_title_and_artist : Bool) :
    List String × Except ε DownloadOk :=
  let dlStatuses := eff.dl_events.map progressMsg
  match eff.dl_outcome with
  | .error e => ("Initializing download" :: dlStatuses, .error e)
  | .ok _ =>
    let mp3_path := audio_path sep download_folder video_id
    match eff.crop_outcome with
    | .error e =>
      ("Initializing download" :: dlStatuses ++ ["Cropping thumbnail"], .error e)
    | .ok _ =>
      match eff.cleanup_outcome with
      | .error e =>
        ("Initializing download" :: dlStatuses
           ++ ["Cropping thumbnail", "Cleaning up metadata"], .error e)
      | .ok (title, artist) =>
        ("Initializing download" :: dlStatuses
           ++ ["Cropping thumbnail", "Cleaning up metadata", "Saved as " ++ mp3_path],
         .ok { mp3_path := mp3_path,
               title_artist := if return_title_and_artist then some (title, artist) else none })

/-- Concrete stage outcomes instantiating a successful pipeline run. -/
def effC1 : StageEffects Nat :=
  { dl_events := [⟨.downloading, some "50.0%"⟩, ⟨.finished, none⟩]
  , dl_outcome := .ok ()
  , crop_outcome := .ok ()
  , cleanup_outcome := .ok ("T", "A") }

/-- Concrete stage outcomes instantiating a failing download stage. -/
def effC2 : StageEffects Nat :=
  { dl_events := [⟨.downloading, some "10%"⟩]
  , dl_outcome := .error 7
  , crop_outcome := .ok ()
  , cleanup_outcome := .ok ("T", "A") }

/-! ## Thumbnail cropper (core.py `crop_thumbnail`, lines 112-150)

The embedded cover image is modelled by its pixel dimensions; the ID3 tag block
by an ordered association list of frame keys and frames.  PIL geometry
(`Image.crop`, `Image.thumbnail`) acts on dimensions only, which is what the
claims are about. -/

/-- An image, by its dimensions (PIL `Image.size`). -/
structure Image where
  width : Nat
  height : Nat
deriving DecidableEq

/-- An ID3 frame: an embedded picture (`APIC`, carrying the decoded image) or
    any other frame (its payload irrelevant here). -/
inductive Frame
  | apic (img : Image)
  | text (value : String)
deriving DecidableEq

/-- The ID3 tag block: keys with frames, in file order (mutagen's `ID3` mapping
    preserves insertion order). -/
abbrev Tag := List (String × Frame)

/-- Whether `pat` starts `s`. -/
def listStarts : List Char → List Char → Bool
  | [], _ => true
  | _ :: _, [] => false
  | c :: cs, x :: xs => c == x && listStarts cs xs

/-- Python's substring test `pat in s`. -/
def containsSub (pat : List Char) : List Char → Bool
  | [] => listStarts pat []
  | x :: xs => listStarts pat (x :: xs) || containsSub pat xs

/-- The loop `for key in id3: if 'APIC' in key: ...; break` - the first frame
    whose key contains `'APIC'`. -/
def findCoverFrame (t : Tag) : Option (String × Frame) :=
  t.find? (fun kv => containsSub "APIC".data kv.1.data)

/-- `id3['APIC'] = APIC(...)`: replace the frame stored under the exact key if
    present, else append it (mutagen's mapping assignment). -/
def setFrame : Tag → String → Frame → Tag
  | [], k, f => [(k, f)]
  | (k0, f0) :: rest, k, f =>
    if k0 = k then (k, f) :: rest else (k0, f0) :: setFrame rest k f

/-- Lookup of the frame stored under an exact key. -/
def lookupFrame (t : Tag) (k : String) : Option Frame :=
  (t.find? (fun kv => kv.1 == k)).map (fun kv => kv.2)

/-- The crop `album_cover.crop(box=(center - width // 2, 0, center + width // 2, height))`
    after `center = width // 2; width, height = height, height`: the resulting
    PIL image has size `(right - left, lower - upper)`.  Computed in `Int` as in
    Python (floor division on non-negative values coincides). -/
def croppedDims (img : Image) : Image :=
  let center : Int := (img.width : Int) / 2
  let side : Int := (img.height : Int)
  { width := ((center + side / 2) - (center - side / 2)).toNat
  , height := img.height }

/-- PIL's `round_aspect`: `max(min(floor(x), ceil(x), key=dist), 1)` - round to
    the nearer of floor/ceil of `num / den`, preferring floor on a tie, and at
    least 1.  Stated in exact rational arithmetic (PIL computes the same value
    in floating point). -/
def roundAspect (num den : Nat) : Nat :=
  max 1 (if 2 * (num % den) ≤ den then num / den else num / den + 1)

/-- PIL `Image.thumbnail(size=(512, 512))` on the dimensions: a no-op when the
    image already fits, otherwise scale down to fit the 512x512 box preserving
    the aspect ratio. -/
def thumbnailDims (img : Image) : Image :=
  if img.width ≤ 512 ∧ img.height ≤ 512 then img
  else if img.width ≤ img.height then
    { width := roundAspect (512 * img.width) img.height, height := 512 }
  else
    { width := 512, height := roundAspect (512 * img.height) img.width }

/-- The image-processing core of `crop_thumbnail`: centered crop with the
    height as side, then bounded downsample (the re-encode to JPEG does not
    change the dimensions). -/
def processCover (img : Image) : Image :=
  thumbnailDims (croppedDims img)

/-- core.py `crop_thumbnail` on the tag block: no frame with an `APIC` key is a
    no-op; otherwise the processed cover is re-embedded under the key `'APIC'`
    and the tag saved.  `none` marks the unmodelled case of a frame whose key
    contains `APIC` but which carries no picture data (the source would fail
    reading `.data` on it). -/
def crop_thumbnail (t : Tag) : Option Tag :=
  match findCoverFrame t with
  | none => some t
  | some (_, .text _) => none
  | some (_, .apic img) => some (setFrame t "APIC" (.apic (processCover img)))

/-- Concrete tag block with a landscape 600x400 cover. -/
def tagC4 : Tag := [("APIC:Cover", Frame.apic ⟨600, 400⟩)]

/-! ## Metadata normalizer (core.py `cleanup_metadata`, lines 153-171)

`re.sub(rf'{artist}\s+.+?\s+', '', title)` interpolates the artist tag into the
pattern, so the artist text is parsed as a regular expression.  The pattern
fragment is modelled faithfully for artists made of ordinary characters, `.`
(any character but newline) and parenthesised groups; an unbalanced parenthesis
is a parse error, as in Python's `re`.  Other regex metacharacters in the
artist are outside the model's scope (no theorem below uses them).  `\s` is the
ASCII whitespace class; `.+?` is lazy; both `\s+` runs are greedy with the
backtracking Python's engine performs. -/

/-- One compiled element of the interpolated artist pattern. -/
inductive Matcher
  | lit (c : Char)
  | dot
deriving DecidableEq

/-- Compile the artist text as Python `re` parses it: `.` is a wildcard,
    parentheses group (and must balance - `none` is `re.error`), every other
    modelled character matches itself.  The counter tracks open groups. -/
def compileArtist : List Char → Nat → Option (List Matcher)
  | [], 0 => some []
  | [], _ + 1 => none
  | '.' :: rest, d => (compileArtist rest d).map (fun ms => Matcher.dot :: ms)
  | '(' :: rest, d => compileArtist rest (d + 1)
  | ')' :: _, 0 => none
  | ')' :: rest, d + 1 => compileArtist rest d
  | c :: rest, d => (compileArtist rest d).map (fun ms => Matcher.lit c :: ms)

/-- Python's `\s` on ASCII text. -/
def isPySpace (c : Char) : Bool :=
  c == ' ' || c == '\t' || c == '\n' || c == '\r' || c == '\x0b' || c == '\x0c'

/-- Match the compiled artist matchers against a prefix of `s` (one character
    per matcher; `dot` matches anything but a newline). -/
def dropMatchers : List Matcher → List Char → Option (List Char)
  | [], s => some s
  | _ :: _, [] => none
  | Matcher.lit c :: ms, x :: xs => if c = x then dropMatchers ms xs else none
  | Matcher.dot :: ms, x :: xs => if x = '\n' then none else dropMatchers ms xs

/-- The `.+?\s+` tail of the pattern: lazily extend the dot run one character
    (never a newline) at a time until a whitespace run follows; the final `\s+`
    is greedy.  Returns the remainder after the match. -/
def tryLazyDot : List Char → Option (List Char)
  | [] => none
  | c :: rest =>
    if c = '\n' then none
    else if rest.takeWhile isPySpace = [] then tryLazyDot rest
    else some (rest.dropWhile isPySpace)

/-- Backtracking of the first greedy `\s+`: with `sp` the maximal whitespace
    run, try keeping `k` of its characters for the `\s+` (from all of them down
    to one), handing the rest to `.+?\s+`. -/
def descend : Nat → List Char → List Char → Option (List Char)
  | 0, _, _ => none
  | k + 1, sp, rest =>
    match tryLazyDot (sp.drop (k + 1) ++ rest) with
    | some r => some r
    | none => descend k sp rest

/-- The `\s+.+?\s+` part of the pattern after the artist: the first `\s+` is
    greedy (at least one whitespace character) and backtracks as Python's
    engine does. -/
def matchAfterArtist (s : List Char) : Option (List Char) :=
  let sp := s.takeWhile isPySpace
  if sp = [] then none else descend sp.length sp (s.dropWhile isPySpace)

/-- Try the whole pattern `{artist}\s+.+?\s+` at the current position,
    returning the remainder after the match. -/
def matchPatAt (ms : List Matcher) (s : List Char) : Option (List Char) :=
  match dropMatchers ms s with
  | none => none
  | some s2 => matchAfterArtist s2

/-- `re.sub(pattern, '', title)`: scan left to right, removing each
    non-overlapping match and resuming after it.  Structural fuel (initially
    the string length, which every step strictly decreases) keeps the
    definition computable by reduction. -/
def subScanF (ms : List Matcher) : Nat → List Char → List Char
  | 0, s => s
  | _ + 1, [] => []
  | n + 1, c :: rest =>
    match matchPatAt ms (c :: rest) with
    | some r => subScanF ms n r
    | none => c :: subScanF ms n rest

/-- `re.sub(rf'{artist}\s+.+?\s+', '', title)` on the title characters. -/
def subScan (ms : List Matcher) (s : List Char) : List Char :=
  subScanF ms s.length s

/-- The three EasyID3 text tags `cleanup_metadata` works with; `none` is a
    missing tag. -/
structure EasyTags where
  title : Option String
  artist : Option String
  album : Option String
deriving DecidableEq

/-- The tag block after `cleanup_metadata` plus its `(title, artist)` return
    value. -/
structure CleanupOut where
  tags : EasyTags
  ret : String × String
deriving DecidableEq

/-- The two ways core.py `cleanup_metadata` raises: `KeyError` on a missing
    title or artist tag, `re.error` from compiling the interpolated pattern. -/
inductive MetaErr
  | keyError
  | regexError
deriving DecidableEq

/-- Python truthiness of `album` (`id3.get('album', [None])[0]`): falsy when the
    tag is missing or its value is the empty string. -/
def albumFalsy : Option String → Bool
  | none => true
  | some s => s == ""

/-- core.py `cleanup_metadata`: read title/artist/album, strip the first-match
    occurrences of `{artist}\s+.+?\s+` from the title, store the cleaned title,
    backfill a falsy album with it, and return `(title, artist)`. -/
def cleanup_metadata (t : EasyTags) : Except MetaErr CleanupOut :=
  match t.title, t.artist with
  | some title, some artist =>
    match compileArtist artist.data 0 with
    | none => .error .regexError
    | some ms =>
      let cleaned : String := ⟨subScan ms title.data⟩
      .ok { tags := { title := some cleaned
                    , artist := some artist
                    , album := if albumFalsy t.album then some cleaned else t.album }
          , ret := (cleaned, artist) }
  | _, _ => .error .keyError

/-! ## URL parser (core.py `VIDEO_URL_REGEX`, `get_video_id`, lines 22-31)

The regex
`https?://(?:www\.)?youtu(?:\.be/|be\.com/(?:watch\?v=|v/|embed/|user/(?:[\w#]+/)+))([^&#?\n]+)[^\s]*`
is applied with `re.fullmatch`; `get_video_id` returns group 1 or `None`.  The
embedding is a hand-derived matcher with the same backtracking semantics:

  - every alternation and optional piece of the fixed prefix is decided by the
    next input character (the alternatives begin with pairwise distinct
    characters), so the prefix needs no backtracking;
  - the greedy capture `([^&#?\n]+)` never benefits from giving characters
    back: the trailing `[^\s]*` must consume the rest of the input, and it
    fails only on a whitespace character, which stays in the remainder however
    much of the capture is given back - so the maximal run is the only
    candidate;
  - the `(?:[\w#]+/)+` repetition of the `user/` branch does backtrack (the
    capture needs at least one character), greedily trying more repetitions
    first; each single repetition is determined, because a `[\w#]+` run is
    ended exactly by the mandatory `/`.

Character classes are the ASCII reading of Python's `\w` and `\s`; non-ASCII
input is outside the model's scope. -/

/-- The `[^&#?\n]` class, complemented: characters ending the captured run. -/
def idStopChar (c : Char) : Bool := c == '&' || c == '#' || c == '?' || c == '\n'

/-- The `[\w#]` class (ASCII `\w` plus `#`). -/
def isWordHash (c : Char) : Bool := c.isAlphanum || c == '_' || c == '#'

def litHttp : List Char := ['h', 't', 't', 'p']
def litSchemeTail : List Char := [':', '/', '/']
def litWww : List Char := ['w', 'w', 'w', '.']
def litYoutu : List Char := ['y', 'o', 'u', 't', 'u']
def litBeSlash : List Char := ['b', 'e', '/']
def litECom : List Char := ['e', '.', 'c', 'o', 'm', '/']
def litWatch : List Char := ['w', 'a', 't', 'c', 'h', '?', 'v', '=']
def litSlash : List Char := ['/']
def litEmbed : List Char := ['e', 'm', 'b', 'e', 'd', '/']
def litUser : List Char := ['u', 's', 'e', 'r', '/']

/-- Consume an exact literal from the front of the input. -/
def dropLit : List Char → List Char → Option (List Char)
  | [], s => some s
  | _ :: _, [] => none
  | c :: cs, x :: xs => if c = x then dropLit cs xs else none

/-- `https?://`: `http`, the optional greedy `s` (decidable by the next
    character, `s` versus `:`), then `://`. -/
def dropScheme (s : List Char) : Option (List Char) :=
  match dropLit litHttp s with
  | none => none
  | some [] => none
  | some (c :: rest) =>
    if c = 's' then dropLit litSchemeTail rest else dropLit litSchemeTail (c :: rest)

/-- `(?:www\.)?`, greedy; whether it is taken is decided by the next character
    (`w` versus the host's initial `y`). -/
def dropWww (s : List Char) : List Char :=
  match dropLit litWww s with
  | some r => r
  | none => s

/-- `([^&#?\n]+)[^\s]*` against the whole remaining input: the greedy
    non-empty capture, then the trailing run, which must reach the end of the
    input and therefore contain no whitespace.  Returns the captured group. -/
def tailMatch (r : List Char) : Option (List Char) :=
  if r.takeWhile (fun c => !idStopChar c) = [] then none
  else if (r.dropWhile (fun c => !idStopChar c)).all (fun c => !isPySpace c) then
    some (r.takeWhile (fun c => !idStopChar c))
  else none

/-- One `[\w#]+/` repetition: the maximal non-empty `[\w#]` run, then the
    mandatory `/`. -/
def segStep (s : List Char) : Option (List Char) :=
  if s.takeWhile isWordHash = [] then none
  else
    match s.dropWhile isWordHash with
    | '/' :: r => some r
    | _ => none

/-- The rest of `(?:[\w#]+/)+([^&#?\n]+)[^\s]*` once at least one repetition
    has been consumed: greedily try a further repetition, falling back to the
    capture-and-trailer at the current position.  Structural fuel: every
    repetition consumes at least two characters, so fuel equal to the input
    length (see `userRest`) never runs out. -/
def userRestF : Nat → List Char → Option (List Char)
  | 0, _ => none
  | n + 1, r =>
    match segStep r with
    | some r2 =>
      match userRestF n r2 with
      | some g => some g
      | none => tailMatch r
    | none => tailMatch r

/-- `userRestF` at adequate fuel. -/
def userRest (r : List Char) : Option (List Char) := userRestF r.length r

/-- The host alternation after the literal `youtu`, followed by the capture
    and trailer: `\.be/`, or `be\.com/` followed by `watch\?v=`, `v/`,
    `embed/`, or `user/(?:[\w#]+/)+`.  Each alternative is selected by its
    first character. -/
def matchHostAndTail : List Char → Option (List Char)
  | [] => none
  | c :: rest =>
    if c = '.' then (dropLit litBeSlash rest).bind tailMatch
    else if c = 'b' then
      match dropLit litECom rest with
      | none => none
      | some [] => none
      | some (c2 :: r2) =>
        if c2 = 'w' then (dropLit litWatch (c2 :: r2)).bind tailMatch
        else if c2 = 'v' then (dropLit litSlash r2).bind tailMatch
        else if c2 = 'e' then (dropLit litEmbed (c2 :: r2)).bind tailMatch
        else if c2 = 'u' then
          (dropLit litUser (c2 :: r2)).bind (fun r3 => (segStep r3).bind userRest)
        else none
    else none

/-- `re.fullmatch(VIDEO_URL_REGEX, url)`, returning the captured group. -/
def matchUrl (s : List Char) : Option (List Char) :=
  match dropScheme s with
  | none => none
  | some s1 =>
    match dropLit litYoutu (dropWww s1) with
    | none => none
    | some s2 => matchHostAndTail s2

/-- core.py `get_video_id`: the captured identifier on a full match, else
    `None`. -/
def get_video_id (url : String) : Option String :=
  (matchUrl url.data).map (fun l => ⟨l⟩)

/-! ### The URL grammar as the specification states it

A second, independent reading of the claim's grammar: scheme `http` or
`https`, optional `www.`, one of the accepted host forms (`youtu.be/`,
`youtube.com/watch?v=`, `youtube.com/v/`, `youtube.com/embed/`,
`youtube.com/user/<segment>/.../`), an identifier of one or more characters
excluding `&`, `#`, `?` and newline, then any trailing non-whitespace. -/

def specScheme : Bool → List Char
  | false => ['h', 't', 't', 'p', ':', '/', '/']
  | true => ['h', 't', 't', 'p', 's', ':', '/', '/']

def specWww : Bool → List Char
  | false => []
  | true => ['w', 'w', 'w', '.']

def specHostBe : List Char := ['y', 'o', 'u', 't', 'u', '.', 'b', 'e', '/']
def specHostWatch : List Char :=
  ['y', 'o', 'u', 't', 'u', 'b', 'e', '.', 'c', 'o', 'm', '/',
   'w', 'a', 't', 'c', 'h', '?', 'v', '=']
def specHostV : List Char :=
  ['y', 'o', 'u', 't', 'u', 'b', 'e', '.', 'c', 'o', 'm', '/', 'v', '/']
def specHostEmbed : List Char :=
  ['y', 'o', 'u', 't', 'u', 'b', 'e', '.', 'c', 'o', 'm', '/',
   'e', 'm', 'b', 'e', 'd', '/']
def specHostUserPre : List Char :=
  ['y', 'o', 'u', 't', 'u', 'b', 'e', '.', 'c', 'o', 'm', '/',
   'u', 's', 'e', 'r', '/']

/-- A `<segment>` of the `user/` host form: non-empty, of `[\w#]` characters. -/
def SpecSeg (seg : List Char) : Prop := seg ≠ [] ∧ ∀ c ∈ seg, isWordHash c = true

/-- The accepted host forms of the grammar. -/
def SpecHost (h : List Char) : Prop :=
  h = specHostBe ∨ h = specHostWatch ∨ h = specHostV ∨ h = specHostEmbed ∨
  ∃ segs : List (List Char), segs ≠ [] ∧ (∀ seg ∈ segs, SpecSeg seg) ∧
    h = specHostUserPre ++ (segs.map (fun seg => seg ++ ['/'])).flatten

/-- `url` decomposes as scheme, optional `www.`, host form, the identifier
    `id` (non-empty, no `&`/`#`/`?`/newline), and non-whitespace trailer. -/
def SpecDecomp (url id trail : List Char) : Prop :=
  ∃ (ssl www : Bool) (host : List Char), SpecHost host ∧
    url = specScheme ssl ++ (specWww www ++ (host ++ (id ++ trail))) ∧
    id ≠ [] ∧ (∀ c ∈ id, idStopChar c = false) ∧ (∀ c ∈ trail, isPySpace c = false)

/-- `url` fully matches the grammar with identifier `id`. -/
def SpecMatch (url id : List Char) : Prop := ∃ trail, SpecDecomp url id trail

/-- `url` fully matches and `id` runs up to the first `&`, `#` or `?`, or to
    the end of the string. -/
def SpecMatchMax (url id : List Char) : Prop :=
  ∃ trail, SpecDecomp url id trail ∧
    (trail = [] ∨ ∃ c rest2, trail = c :: rest2 ∧ (c = '&' ∨ c = '#' ∨ c = '?'))

/-- Concrete tags with an empty (falsy) album value. -/
def tagsC9 : EasyTags := ⟨some "Artist Name - Cool", some "Artist Name", some ""⟩

/-- The result of `cleanup_metadata` on `tagsC9`. -/
def outC9 : CleanupOut :=
  { tags := ⟨some "Cool", some "Artist Name", some "Cool"⟩
  , ret := ("Cool", "Artist Name") }

/-! ## Helper lemmas about status strings -/

/-- The first character distinguishes an appended status string from another. -/
theorem string_ne_of_head {s t : String} (h : s.data.head? ≠ t.data.head?) : s ≠ t := by
  intro he
  exact h (by rw [he])

theorem data_head_append (s p : String) (c : Char) (h : s.data.head? = some c) :
    (s ++ p).data.head? = some c := by
  rw [String.data_append]
  cases hd : s.data with
  | nil => rw [hd] at h; simp at h
  | cons x xs => rw [hd] at h; simp at h; simp [hd, h]

/-- Every interim message produced by the progress adapter is a
    `Downloading `-prefixed message, `Converting`, or `Error occurred`. -/
theorem progressMsg_shape (p : YouTubeDLProgress) :
    (∃ q, progressMsg p = "Downloading " ++ q) ∨ progressMsg p = "Converting" ∨
      progressMsg p = "Error occurred" := by
  cases hp : p.status <;> simp [progressMsg, hp]

/-! ## Claim theorems: orchestrator (C1, C2), progress adapter (C6), paths (C7) -/

/-- C1: for every successful invocation of `download`, the status callback is
    invoked in exactly this order: `Initializing download`, then the interim
    messages produced by the progress adapter (each a `Downloading <percentage>`
    message, `Converting`, or `Error occurred`), then `Cropping thumbnail`, then
    `Cleaning up metadata`, and finally `Saved as <path>` where `<path>` is the
    path the call returns; no phase status is emitted out of order or
    duplicated. -/
theorem download_status_sequence {ε : Type} (eff : StageEffects ε) (sep : Char)
    (video_id download_folder : String) (b : Bool) (t a : String)
    (h1 : eff.dl_outcome = .ok ()) (h2 : eff.crop_outcome = .ok ())
    (h3 : eff.cleanup_outcome = .ok (t, a)) :
    (download eff sep video_id download_folder b).1
      = "Initializing download" :: eff.dl_events.map progressMsg
          ++ ["Cropping thumbnail", "Cleaning up metadata",
              "Saved as " ++ audio_path sep download_folder video_id]
    ∧ (download eff sep video_id download_folder b).2
        = .ok { mp3_path := audio_path sep download_folder video_id,
                title_artist := if b then some (t, a) else none }
    ∧ ∀ m ∈ eff.dl_events.map progressMsg,
        (∃ q, m = "Downloading " ++ q) ∨ m = "Converting" ∨ m = "Error occurred" := by
  refine ⟨?_, ?_, ?_⟩
  · simp [download, h1, h2, h3]
  · simp [download, h1, h2, h3]
  · intro m hm
    obtain ⟨p, _, rfl⟩ := List.mem_map.mp hm
    exact progressMsg_shape p

theorem download_status_sequence_witness :
    (download effC1 '\\' "abc" "dl" true).1
      = ["Initializing download", "Downloading 50.0%", "Converting",
         "Cropping thumbnail", "Cleaning up metadata", "Saved as dl\\abc.mp3"] :=
  (download_status_sequence effC1 '\\' "abc" "dl" true "T" "A" rfl rfl rfl).1.trans
    (by decide)

/-- C2: if the download stage raises, no `Cropping thumbnail`,
    `Cleaning up metadata` or `Saved as ...` status is ever emitted, no later
    stage contributes to the trace, no partial result is returned, and the
    caller receives exactly the raised error value. -/
theorem download_error_propagation {ε : Type} (eff : StageEffects ε) (sep : Char)
    (video_id download_folder : String) (b : Bool) (e : ε)
    (h : eff.dl_outcome = .error e) :
    (download eff sep video_id download_folder b).1
      = "Initializing download" :: eff.dl_events.map progressMsg
    ∧ (download eff sep video_id download_folder b).2 = .error e
    ∧ ∀ m ∈ (download eff sep video_id download_folder b).1,
        m ≠ "Cropping thumbnail" ∧ m ≠ "Cleaning up metadata" ∧
          ∀ q, m ≠ "Saved as " ++ q := by
  have htr : (download eff sep video_id download_folder b).1
      = "Initializing download" :: eff.dl_events.map progressMsg := by
    simp [download, h]
  refine ⟨htr, by simp [download, h], ?_⟩
  intro m hm
  rw [htr] at hm
  have hshape : m = "Initializing download" ∨
      (∃ q, m = "Downloading " ++ q) ∨ m = "Converting" ∨ m = "Error occurred" := by
    rcases List.mem_cons.mp hm with h0 | h0
    · exact Or.inl h0
    · obtain ⟨p, _, rfl⟩ := List.mem_map.mp h0
      exact Or.inr (progressMsg_shape p)
  have hsaved : ∀ q, m ≠ "Saved as " ++ q := by
    intro q
    rcases hshape with rfl | ⟨q2, rfl⟩ | rfl | rfl
    · exact string_ne_of_head (by rw [data_head_append "Saved as " q 'S' rfl]; decide)
    · apply string_ne_of_head
      rw [data_head_append "Downloading " q2 'D' rfl,
          data_head_append "Saved as " q 'S' rfl]
      decide
    · exact string_ne_of_head (by rw [data_head_append "Saved as " q 'S' rfl]; decide)
    · exact string_ne_of_head (by rw [data_head_append "Saved as " q 'S' rfl]; decide)
  refine ⟨?_, ?_, hsaved⟩
  · rcases hshape with rfl | ⟨q2, rfl⟩ | rfl | rfl
    · decide
    · exact string_ne_of_head (by rw [data_head_append "Downloading " q2 'D' rfl]; decide)
    · decide
    · decide
  · rcases hshape with rfl | ⟨q2, rfl⟩ | rfl | rfl
    · decide
    · exact string_ne_of_head (by rw [data_head_append "Downloading " q2 'D' rfl]; decide)
    · decide
    · decide

theorem download_error_propagation_witness :
    (download effC2 '/' "v" "d" false).2 = .error 7 :=
  (download_error_propagation effC2 '/' "v" "d" false 7 rfl).2.1

/-- C6: constructing a progress event from the raw mapping succeeds for exactly
    the status keywords `downloading`, `finished` and `error`, attaches the
    percentage string when present, ignores unknown extra keys (the event
    depends only on the `status` and `_percent_str` lookups), and fails for any
    other status. -/
theorem progress_hook_total (m : List (String × String)) :
    ((progress_hook m).isSome = true
      ↔ (lookupKey m "status" = some "downloading"
          ∨ lookupKey m "status" = some "finished"
          ∨ lookupKey m "status" = some "error"))
    ∧ (∀ ev, progress_hook m = some ev →
        ev.completion_percentage = lookupKey m "_percent_str")
    ∧ ∀ m2, lookupKey m2 "status" = lookupKey m "status" →
        lookupKey m2 "_percent_str" = lookupKey m "_percent_str" →
        progress_hook m2 = progress_hook m := by
  refine ⟨?_, ?_, ?_⟩
  · cases hs : lookupKey m "status" with
    | none => simp [progress_hook, statusOfString, hs]
    | some s =>
      by_cases h1 : s = "downloading"
      · simp [progress_hook, statusOfString, hs, h1]
      · by_cases h2 : s = "finished"
        · simp [progress_hook, statusOfString, hs, h1, h2]
        · by_cases h3 : s = "error"
          · simp [progress_hook, statusOfString, hs, h1, h2, h3]
          · simp [progress_hook, statusOfString, hs, h1, h2, h3]
  · intro ev hev
    unfold progress_hook at hev
    cases hst : statusOfString (lookupKey m "status") with
    | none => rw [hst] at hev; simp at hev
    | some st =>
      rw [hst] at hev
      simp at hev
      rw [← hev]
  · intro m2 hst hpc
    unfold progress_hook
    rw [hst, hpc]

theorem progress_hook_total_witness :
    (progress_hook [("status", "downloading"), ("_percent_str", " 50.0%"),
                    ("elapsed", "1")]).isSome = true :=
  (progress_hook_total _).1.mpr (Or.inl (by decide))

/-- C7 counterexample: the configured output template is NOT
    `<destinationDir>/<id>.<ext>`; it joins the folder and the file-name
    template with a hard-coded backslash. -/
theorem outtmpl_separator_cex :
    outtmpl "d" = "d\\%(id)s.%(ext)s" ∧ outtmpl "d" ≠ "d/%(id)s.%(ext)s" := by
  decide

/-- C7 (amended): `download_audio` configures the downloader with the output
    template `f'{download_folder}\%(id)s.%(ext)s'` - folder, hard-coded
    backslash, id/extension template - and on success returns the path obtained
    by joining `download_folder` and `<video_id>.mp3` with the platform path
    separator (computed from the naming convention, not read back from the
    downloader); the returned path matches the template's separator exactly
    when the platform separator is the backslash. -/
theorem download_audio_paths (sep : Char) (folder vid : String) :
    outtmpl folder = folder ++ "\\" ++ "%(id)s.%(ext)s"
    ∧ audio_path sep folder vid = folder ++ String.singleton sep ++ tmpl_filename vid "mp3"
    ∧ (audio_path sep folder vid = folder ++ "\\" ++ tmpl_filename vid "mp3"
        ↔ sep = '\\') := by
  refine ⟨rfl, rfl, ?_⟩
  unfold audio_path
  constructor
  · intro h
    have hd := congrArg String.data h
    simp only [String.data_append] at hd
    rw [List.append_assoc, List.append_assoc] at hd
    have h2 := List.append_cancel_left hd
    have h5 := List.append_cancel_right h2
    have h3 : (String.singleton sep).data = [sep] := rfl
    rw [h3] at h5
    simpa using h5
  · intro h
    rw [h]
    rfl

/-! ## Lemmas for the thumbnail cropper -/

/-- The crop box width evaluates to twice half the height (so the height itself
    exactly when the height is even). -/
theorem croppedDims_eq (img : Image) :
    croppedDims img = ⟨2 * (img.height / 2), img.height⟩ := by
  simp only [croppedDims, Image.mk.injEq, and_true]
  omega

theorem roundAspect_le {w h : Nat} (hh : 0 < h) (hw : w ≤ h) :
    roundAspect (512 * w) h ≤ 512 := by
  unfold roundAspect
  have hdiv : 512 * h / h = 512 := by
    rw [Nat.mul_div_assoc 512 (dvd_refl h), Nat.div_self hh, Nat.mul_one]
  have hq : 512 * w / h ≤ 512 := by
    calc 512 * w / h ≤ 512 * h / h := Nat.div_le_div_right (by omega)
    _ = 512 := hdiv
  split
  · exact max_le (by omega) hq
  · rename_i hrem
    have hlt : w < h := by
      rcases Nat.lt_or_ge w h with h3 | h3
      · exact h3
      · exfalso
        have hwe : w = h := le_antisymm hw h3
        subst hwe
        rw [Nat.mul_mod_left] at hrem
        omega
    have hqlt : 512 * w / h < 512 := by
      rw [Nat.div_lt_iff_lt_mul hh]
      omega
    exact max_le (by omega) (by omega)

theorem roundAspect_exact {h : Nat} (hh : 0 < h) : roundAspect (512 * h) h = 512 := by
  unfold roundAspect
  have hdiv : 512 * h / h = 512 := by
    rw [Nat.mul_div_assoc 512 (dvd_refl h), Nat.div_self hh, Nat.mul_one]
  rw [Nat.mul_mod_left, hdiv]
  simp

theorem thumbnailDims_bounds (img : Image) (hh : 0 < img.height)
    (hw : img.width ≤ img.height) :
    (thumbnailDims img).width ≤ 512 ∧ (thumbnailDims img).height ≤ 512 := by
  unfold thumbnailDims
  by_cases hfit : img.width ≤ 512 ∧ img.height ≤ 512
  · rw [if_pos hfit]
    exact ⟨hfit.1, hfit.2⟩
  · rw [if_neg hfit, if_pos hw]
    exact ⟨roundAspect_le hh hw, le_refl _⟩

theorem processCover_bounds (img : Image) (hh : 0 < img.height) :
    (processCover img).width ≤ 512 ∧ (processCover img).height ≤ 512 := by
  unfold processCover
  have h1 : (croppedDims img).width ≤ (croppedDims img).height := by
    rw [croppedDims_eq]
    simp
    omega
  have h2 : 0 < (croppedDims img).height := by
    rw [croppedDims_eq]
    exact hh
  exact thumbnailDims_bounds _ h2 h1

theorem processCover_square (img : Image) (hh : 0 < img.height)
    (he : img.height % 2 = 0) :
    (processCover img).width = (processCover img).height := by
  have h2 : 2 * (img.height / 2) = img.height := by omega
  have hc : croppedDims img = ⟨img.height, img.height⟩ := by
    rw [croppedDims_eq, h2]
  unfold processCover
  rw [hc]
  unfold thumbnailDims
  by_cases hfit : (Image.mk img.height img.height).width ≤ 512 ∧
      (Image.mk img.height img.height).height ≤ 512
  · rw [if_pos hfit]
  · rw [if_neg hfit,
        if_pos (show (Image.mk img.height img.height).width ≤
          (Image.mk img.height img.height).height from le_refl _)]
    simp [roundAspect_exact hh]

theorem lookupFrame_setFrame (t : Tag) (k : String) (f : Frame) :
    lookupFrame (setFrame t k f) k = some f := by
  induction t with
  | nil => simp [setFrame, lookupFrame, List.find?]
  | cons kv rest ih =>
    obtain ⟨k0, f0⟩ := kv
    by_cases hk : k0 = k
    · simp [setFrame, hk, lookupFrame, List.find?]
    · have hk2 : (k0 == k) = false := by simp [hk]
      simp only [setFrame, if_neg hk, lookupFrame, List.find?_cons, hk2]
      exact ih

/-! ## Claim theorems: thumbnail cropper (C4, C8) -/

/-- C4 counterexample: on a 5x3 (landscape, odd-height) cover the re-embedded
    image has dimensions 2x3 - not square. -/
theorem crop_thumbnail_square_cex :
    crop_thumbnail [("APIC:Cover", Frame.apic ⟨5, 3⟩)]
      = some [("APIC:Cover", Frame.apic ⟨5, 3⟩), ("APIC", Frame.apic ⟨2, 3⟩)]
    ∧ (Image.mk 2 3).width ≠ (Image.mk 2 3).height := by
  decide

/-- C4 (amended): on a file whose first `APIC`-keyed frame holds a cover with
    width strictly greater than height, `crop_thumbnail` re-embeds under the
    key `APIC` the processed cover, which is no larger than 512 pixels in
    either dimension; the crop is horizontally centered with the full vertical
    extent as side, so its width is `2 * (height / 2)` - exactly square
    precisely when the height is even (one pixel narrower when it is odd). -/
theorem crop_thumbnail_square_bound (t : Tag) (k : String) (img : Image)
    (hf : findCoverFrame t = some (k, .apic img))
    (_hwh : img.height < img.width) (hh : 0 < img.height) :
    crop_thumbnail t = some (setFrame t "APIC" (.apic (processCover img)))
    ∧ lookupFrame (setFrame t "APIC" (.apic (processCover img))) "APIC"
        = some (.apic (processCover img))
    ∧ (processCover img).width ≤ 512 ∧ (processCover img).height ≤ 512
    ∧ croppedDims img = ⟨2 * (img.height / 2), img.height⟩
    ∧ (img.height % 2 = 0 → (processCover img).width = (processCover img).height) :=
  ⟨by rw [crop_thumbnail, hf], lookupFrame_setFrame t "APIC" _,
   (processCover_bounds img hh).1, (processCover_bounds img hh).2,
   croppedDims_eq img, fun he => processCover_square img hh he⟩

theorem crop_thumbnail_square_bound_witness :
    crop_thumbnail tagC4 = some (setFrame tagC4 "APIC" (.apic (processCover ⟨600, 400⟩)))
    ∧ lookupFrame (setFrame tagC4 "APIC" (.apic (processCover ⟨600, 400⟩))) "APIC"
        = some (.apic (processCover ⟨600, 400⟩))
    ∧ (processCover ⟨600, 400⟩).width ≤ 512 ∧ (processCover ⟨600, 400⟩).height ≤ 512
    ∧ croppedDims ⟨600, 400⟩ = ⟨2 * ((400 : Nat) / 2), 400⟩
    ∧ ((400 : Nat) % 2 = 0 →
        (processCover ⟨600, 400⟩).width = (processCover ⟨600, 400⟩).height) :=
  crop_thumbnail_square_bound tagC4 "APIC:Cover" ⟨600, 400⟩ (by decide) (by decide)
    (by decide)

/-- C8: on a tag block with no embedded-picture frame (no key containing
    `APIC`), `crop_thumbnail` returns without raising and leaves the whole tag
    block unchanged. -/
theorem crop_thumbnail_no_cover (t : Tag)
    (h : ∀ kv ∈ t, containsSub "APIC".data kv.1.data = false) :
    crop_thumbnail t = some t := by
  have hf : findCoverFrame t = none := by
    rw [findCoverFrame, List.find?_eq_none]
    intro kv hkv
    simp [h kv hkv]
  rw [crop_thumbnail, hf]

theorem crop_thumbnail_no_cover_witness :
    crop_thumbnail [("TIT2", Frame.text "t"), ("TPE1", Frame.text "a")]
      = some [("TIT2", Frame.text "t"), ("TPE1", Frame.text "a")] :=
  crop_thumbnail_no_cover _ (by decide)

/-! ## Claim theorems: metadata normalizer (C5, C9, C10) -/

/-- C5: with title `Artist Name - Cool Song (Official Video)` and artist
    `Artist Name`, `cleanup_metadata` strips the single (non-greedy) match of
    `<artist><whitespace><anything lazy><whitespace>`, stores and returns the
    residual title `Cool Song (Official Video)`, backfills the absent album
    tag with it, and returns the artist unmodified. -/
theorem cleanup_metadata_example :
    cleanup_metadata
        ⟨some "Artist Name - Cool Song (Official Video)", some "Artist Name", none⟩
      = .ok { tags := ⟨some "Cool Song (Official Video)", some "Artist Name",
                       some "Cool Song (Official Video)"⟩
            , ret := ("Cool Song (Official Video)", "Artist Name") } := by
  rfl

/-- C9: when the album tag is present but empty (falsy), `cleanup_metadata`
    overwrites it with the cleaned title, just as when it is absent. -/
theorem cleanup_metadata_album_backfill (title artist : String) (out : CleanupOut)
    (h : cleanup_metadata ⟨some title, some artist, some ""⟩ = .ok out) :
    out.tags.album = some out.ret.1 ∧ out.tags.title = some out.ret.1 := by
  cases hc : compileArtist artist.data 0 with
  | none => simp [cleanup_metadata, hc] at h
  | some ms =>
    simp only [cleanup_metadata, hc, albumFalsy] at h
    rw [Except.ok.injEq] at h
    subst h
    simp

theorem cleanup_metadata_album_backfill_witness :
    outC9.tags.album = some outC9.ret.1 ∧ outC9.tags.title = some outC9.ret.1 :=
  cleanup_metadata_album_backfill "Artist Name - Cool" "Artist Name" outC9 (by rfl)

/-- C10: the artist tag is interpolated into the pattern as a regular
    expression, not matched literally: an artist with an unbalanced `(` makes
    `cleanup_metadata` raise instead of returning, while an artist containing
    `.` can remove title text that does not literally contain the artist
    name. -/
theorem cleanup_metadata_regex_injection :
    cleanup_metadata ⟨some "Song Title", some "Artist (Band", none⟩
      = .error .regexError
    ∧ cleanup_metadata ⟨some "ABC - Song", some "A.C", none⟩
        = .ok { tags := ⟨some "Song", some "A.C", some "Song"⟩
              , ret := ("Song", "A.C") }
    ∧ containsSub "A.C".data "ABC - Song".data = false :=
  ⟨rfl, rfl, rfl⟩

/-! ## Lemmas for the URL parser -/

theorem dropLit_some : ∀ {l s r : List Char}, dropLit l s = some r → s = l ++ r := by
  intro l
  induction l with
  | nil =>
    intro s r h
    simp only [dropLit, Option.some.injEq] at h
    simp [h]
  | cons c cs ih =>
    intro s r h
    cases s with
    | nil => simp [dropLit] at h
    | cons x xs =>
      simp only [dropLit] at h
      by_cases hcx : c = x
      · rw [if_pos hcx] at h
        subst hcx
        rw [ih h]
        simp
      · rw [if_neg hcx] at h
        exact absurd h (by simp)

theorem dropLit_self : ∀ (l r : List Char), dropLit l (l ++ r) = some r := by
  intro l r
  induction l with
  | nil => simp [dropLit]
  | cons c cs ih => simp [dropLit, ih]

theorem takeWhile_append_all {p : Char → Bool} :
    ∀ {a : List Char} (b : List Char), (∀ c ∈ a, p c = true) →
      (a ++ b).takeWhile p = a ++ b.takeWhile p := by
  intro a
  induction a with
  | nil => intro b _; simp
  | cons x xs ih =>
    intro b h
    have hx : p x = true := h x (by simp)
    rw [List.cons_append, List.takeWhile_cons, if_pos hx,
        ih b (fun c hc => h c (by simp [hc])), List.cons_append]

theorem dropWhile_append_all {p : Char → Bool} :
    ∀ {a : List Char} (b : List Char), (∀ c ∈ a, p c = true) →
      (a ++ b).dropWhile p = b.dropWhile p := by
  intro a
  induction a with
  | nil => intro b _; simp
  | cons x xs ih =>
    intro b h
    have hx : p x = true := h x (by simp)
    rw [List.cons_append, List.dropWhile_cons, if_pos hx,
        ih b (fun c hc => h c (by simp [hc]))]

theorem dropWhile_head_not {p : Char → Bool} :
    ∀ {l : List Char} {c : Char} {t : List Char}, l.dropWhile p = c :: t → p c = false := by
  intro l
  induction l with
  | nil => intro c t h; simp at h
  | cons x xs ih =>
    intro c t h
    rw [List.dropWhile_cons] at h
    cases hp : p x with
    | true => rw [hp] at h; simp at h; exact ih h
    | false =>
      rw [hp] at h
      simp at h
      obtain ⟨rfl, -⟩ := h
      exact hp

theorem tailMatch_sound {r g : List Char} (h : tailMatch r = some g) :
    ∃ t, r = g ++ t ∧ g ≠ [] ∧ (∀ c ∈ g, idStopChar c = false) ∧
      (∀ c ∈ t, isPySpace c = false) ∧
      (t = [] ∨ ∃ c t2, t = c :: t2 ∧ (c = '&' ∨ c = '#' ∨ c = '?')) := by
  unfold tailMatch at h
  by_cases h1 : r.takeWhile (fun c => !idStopChar c) = []
  · rw [if_pos h1] at h
    exact absurd h (by simp)
  · rw [if_neg h1] at h
    by_cases h2 : (r.dropWhile (fun c => !idStopChar c)).all (fun c => !isPySpace c) = true
    · rw [if_pos h2] at h
      simp only [Option.some.injEq] at h
      subst h
      refine ⟨r.dropWhile (fun c => !idStopChar c),
        (List.takeWhile_append_dropWhile (fun c => !idStopChar c) r).symm, h1, ?_, ?_, ?_⟩
      · intro c hc
        have := List.mem_takeWhile_imp hc
        simpa using this
      · intro c hc
        have := (List.all_eq_true.mp h2) c hc
        simpa using this
      · cases ht : r.dropWhile (fun c => !idStopChar c) with
        | nil => exact Or.inl rfl
        | cons c t2 =>
          refine Or.inr ⟨c, t2, rfl, ?_⟩
          have hstop : (fun c => !idStopChar c) c = false := dropWhile_head_not ht
          have hstop2 : idStopChar c = true := by simpa using hstop
          have hnotsp : isPySpace c = false := by
            have := (List.all_eq_true.mp h2) c (by rw [ht]; simp)
            simpa using this
          have hcases : c = '&' ∨ c = '#' ∨ c = '?' ∨ c = '\n' := by
            have h4 := hstop2
            simp [idStopChar] at h4
            tauto
          rcases hcases with h3 | h3 | h3 | h3
          · exact Or.inl h3
          · exact Or.inr (Or.inl h3)
          · exact Or.inr (Or.inr h3)
          · exfalso
            rw [h3] at hnotsp
            simp [isPySpace] at hnotsp
    · rw [if_neg h2] at h
      exact absurd h (by simp)

theorem tailMatch_complete {id t : List Char} (hne : id ≠ [])
    (hid : ∀ c ∈ id, idStopChar c = false) (ht : ∀ c ∈ t, isPySpace c = false) :
    ∃ g, tailMatch (id ++ t) = some g := by
  unfold tailMatch
  have hidp : ∀ c ∈ id, (fun c => !idStopChar c) c = true := by
    intro c hc
    simp [hid c hc]
  rw [takeWhile_append_all t hidp, dropWhile_append_all t hidp]
  have h1 : id ++ t.takeWhile (fun c => !idStopChar c) ≠ [] := by
    intro hcon
    exact hne (List.append_eq_nil.mp hcon).1
  rw [if_neg h1]
  have h2 : (t.dropWhile (fun c => !idStopChar c)).all (fun c => !isPySpace c) = true := by
    rw [List.all_eq_true]
    intro c hc
    have hct : c ∈ t := (List.dropWhile_suffix _).mem hc
    simp [ht c hct]
  rw [if_pos h2]
  exact ⟨_, rfl⟩

theorem segStep_sound {s r : List Char} (h : segStep s = some r) :
    ∃ run, run ≠ [] ∧ (∀ c ∈ run, isWordHash c = true) ∧ s = run ++ '/' :: r := by
  unfold segStep at h
  by_cases h1 : s.takeWhile isWordHash = []
  · rw [if_pos h1] at h
    exact absurd h (by simp)
  · rw [if_neg h1] at h
    split at h
    · rename_i r0 heq
      simp only [Option.some.injEq] at h
      subst h
      refine ⟨s.takeWhile isWordHash, h1, ?_, ?_⟩
      · intro c hc
        have := List.mem_takeWhile_imp hc
        simpa using this
      · conv_lhs => rw [← List.takeWhile_append_dropWhile isWordHash s]
        rw [heq]
    · exact absurd h (by simp)

theorem segStep_complete {seg : List Char} (r : List Char) (hne : seg ≠ [])
    (hwh : ∀ c ∈ seg, isWordHash c = true) :
    segStep (seg ++ '/' :: r) = some r := by
  unfold segStep
  rw [takeWhile_append_all _ hwh, dropWhile_append_all _ hwh,
      List.takeWhile_cons, List.dropWhile_cons]
  have h3 : isWordHash '/' = false := by decide
  rw [h3]
  simp [hne]

theorem userRestF_sound : ∀ (n : Nat) {r g : List Char}, userRestF n r = some g →
    ∃ (segs : List (List Char)) (t : List Char),
      (∀ seg ∈ segs, SpecSeg seg) ∧
      r = (segs.map (fun seg => seg ++ ['/'])).flatten ++ (g ++ t) ∧
      g ≠ [] ∧ (∀ c ∈ g, idStopChar c = false) ∧ (∀ c ∈ t, isPySpace c = false) ∧
      (t = [] ∨ ∃ c t2, t = c :: t2 ∧ (c = '&' ∨ c = '#' ∨ c = '?')) := by
  intro n
  induction n with
  | zero =>
    intro r g h
    simp [userRestF] at h
  | succ n ih =>
    intro r g h
    unfold userRestF at h
    cases hs : segStep r with
    | none =>
      simp only [hs] at h
      obtain ⟨t, hrt, hg, hgid, htsp, hmax⟩ := tailMatch_sound h
      exact ⟨[], t, by simp, by simpa using hrt, hg, hgid, htsp, hmax⟩
    | some r2 =>
      simp only [hs] at h
      cases hu : userRestF n r2 with
      | none =>
        simp only [hu] at h
        obtain ⟨t, hrt, hg, hgid, htsp, hmax⟩ := tailMatch_sound h
        exact ⟨[], t, by simp, by simpa using hrt, hg, hgid, htsp, hmax⟩
      | some g3 =>
        simp only [hu, Option.some.injEq] at h
        subst h
        obtain ⟨run, hrun, hrunw, hsplit⟩ := segStep_sound hs
        obtain ⟨segs, t, hsegs, hr2, hg, hgid, htsp, hmax⟩ := ih hu
        refine ⟨run :: segs, t, ?_, ?_, hg, hgid, htsp, hmax⟩
        · intro seg hseg
          rcases List.mem_cons.mp hseg with rfl | hseg2
          · exact ⟨hrun, hrunw⟩
          · exact hsegs seg hseg2
        · rw [hsplit, hr2]
          simp [List.append_assoc]

theorem userRest_sound {r g : List Char} (h : userRest r = some g) :
    ∃ (segs : List (List Char)) (t : List Char),
      (∀ seg ∈ segs, SpecSeg seg) ∧
      r = (segs.map (fun seg => seg ++ ['/'])).flatten ++ (g ++ t) ∧
      g ≠ [] ∧ (∀ c ∈ g, idStopChar c = false) ∧ (∀ c ∈ t, isPySpace c = false) ∧
      (t = [] ∨ ∃ c t2, t = c :: t2 ∧ (c = '&' ∨ c = '#' ∨ c = '?')) :=
  userRestF_sound r.length h

theorem userRestF_complete : ∀ (segs : List (List Char)) (n : Nat) {id t : List Char},
    (∀ seg ∈ segs, SpecSeg seg) → id ≠ [] → (∀ c ∈ id, idStopChar c = false) →
    (∀ c ∈ t, isPySpace c = false) →
    ((segs.map (fun seg => seg ++ ['/'])).flatten ++ (id ++ t)).length ≤ n →
    userRestF n ((segs.map (fun seg => seg ++ ['/'])).flatten ++ (id ++ t)) ≠ none := by
  intro segs
  induction segs with
  | nil =>
    intro n id t _ hne hid ht hlen
    simp only [List.map_nil, List.flatten_nil, List.nil_append] at hlen ⊢
    obtain ⟨g, hg⟩ := tailMatch_complete hne hid ht
    cases n with
    | zero =>
      exfalso
      have h1 : id ++ t = [] := List.length_eq_zero.mp (Nat.le_zero.mp hlen)
      exact hne (List.append_eq_nil.mp h1).1
    | succ m =>
      unfold userRestF
      cases hs : segStep (id ++ t) with
      | none => simp [hs, hg]
      | some r2 =>
        cases hu : userRestF m r2 with
        | none => simp [hs, hu, hg]
        | some g3 => simp [hs, hu]
  | cons seg rest ih =>
    intro n id t hsegs hne hid ht hlen
    have hseg : SpecSeg seg := hsegs seg (by simp)
    have hrest : ∀ s2 ∈ rest, SpecSeg s2 := fun s2 hs2 => hsegs s2 (by simp [hs2])
    have hflat : (((seg :: rest).map (fun s2 => s2 ++ ['/'])).flatten) ++ (id ++ t)
        = seg ++ '/' :: (((rest.map (fun s2 => s2 ++ ['/'])).flatten) ++ (id ++ t)) := by
      simp [List.append_assoc]
    rw [hflat] at hlen ⊢
    have hstep := segStep_complete
      (((rest.map (fun s2 => s2 ++ ['/'])).flatten) ++ (id ++ t)) hseg.1 hseg.2
    have h1 : 1 ≤ seg.length := List.length_pos.mpr hseg.1
    cases n with
    | zero =>
      exfalso
      simp [List.length_append] at hlen
    | succ m =>
      have hlen2 :
          ((((rest.map (fun s2 => s2 ++ ['/'])).flatten) ++ (id ++ t))).length ≤ m := by
        simp only [List.length_append, List.length_cons] at hlen
        simp only [List.length_append]
        omega
      have hih := ih m hrest hne hid ht hlen2
      unfold userRestF
      cases hu : userRestF m (((rest.map (fun s2 => s2 ++ ['/'])).flatten) ++ (id ++ t)) with
      | none => exact absurd hu hih
      | some g3 => simp [hstep, hu]

theorem userRest_complete (segs : List (List Char)) {id t : List Char}
    (hsegs : ∀ seg ∈ segs, SpecSeg seg) (hne : id ≠ [])
    (hid : ∀ c ∈ id, idStopChar c = false) (ht : ∀ c ∈ t, isPySpace c = false) :
    userRest ((segs.map (fun seg => seg ++ ['/'])).flatten ++ (id ++ t)) ≠ none :=
  userRestF_complete segs _ hsegs hne hid ht (le_refl _)

theorem dropScheme_sound {s r : List Char} (h : dropScheme s = some r) :
    ∃ b, s = specScheme b ++ r := by
  unfold dropScheme at h
  split at h
  · exact absurd h (by simp)
  · exact absurd h (by simp)
  · rename_i os1 c rest heq
    have hs1 := dropLit_some heq
    by_cases hc : c = 's'
    · rw [if_pos hc] at h
      subst hc
      have hr := dropLit_some h
      refine ⟨true, ?_⟩
      rw [hs1, hr]
      simp [litHttp, litSchemeTail, specScheme]
    · rw [if_neg hc] at h
      have hr := dropLit_some h
      refine ⟨false, ?_⟩
      rw [hs1, hr]
      simp [litHttp, litSchemeTail, specScheme]

theorem dropScheme_self (b : Bool) (r : List Char) :
    dropScheme (specScheme b ++ r) = some r := by
  cases b
  · have h1 : specScheme false ++ r = litHttp ++ (litSchemeTail ++ r) := by
      simp [specScheme, litHttp, litSchemeTail]
    have h2 : litSchemeTail ++ r = ':' :: ('/' :: ('/' :: r)) := by
      simp [litSchemeTail]
    rw [h1]
    unfold dropScheme
    rw [dropLit_self, h2]
    dsimp only
    rw [if_neg (by decide : ¬(':' = 's')), ← h2, dropLit_self]
  · have h1 : specScheme true ++ r = litHttp ++ ('s' :: (litSchemeTail ++ r)) := by
      simp [specScheme, litHttp, litSchemeTail]
    rw [h1]
    unfold dropScheme
    rw [dropLit_self]
    dsimp only
    rw [if_pos rfl]
    exact dropLit_self _ _

theorem dropWww_sound (s : List Char) : ∃ b, s = specWww b ++ dropWww s := by
  cases h : dropLit litWww s with
  | none =>
    refine ⟨false, ?_⟩
    unfold dropWww
    rw [h]
    simp [specWww]
  | some r =>
    refine ⟨true, ?_⟩
    unfold dropWww
    rw [h]
    dsimp only
    rw [dropLit_some h]
    simp [specWww, litWww]

theorem dropWww_www (r : List Char) : dropWww (litWww ++ r) = r := by
  unfold dropWww
  rw [dropLit_self]

theorem dropWww_noWww {c : Char} {t : List Char} (hc : c ≠ 'w') :
    dropWww (c :: t) = c :: t := by
  unfold dropWww
  have h : dropLit litWww (c :: t) = none := by
    show (if 'w' = c then dropLit ['w', 'w', '.'] t else none) = none
    rw [if_neg (fun he => hc he.symm)]
  rw [h]

theorem matchHostAndTail_sound {s g : List Char} (h : matchHostAndTail s = some g) :
    ∃ host t, SpecHost host ∧ litYoutu ++ s = host ++ (g ++ t) ∧
      g ≠ [] ∧ (∀ c ∈ g, idStopChar c = false) ∧ (∀ c ∈ t, isPySpace c = false) ∧
      (t = [] ∨ ∃ c t2, t = c :: t2 ∧ (c = '&' ∨ c = '#' ∨ c = '?')) := by
  cases s with
  | nil => simp [matchHostAndTail] at h
  | cons c rest =>
    rw [matchHostAndTail] at h
    by_cases hc1 : c = '.'
    · rw [if_pos hc1] at h
      subst hc1
      rw [Option.bind_eq_some] at h
      obtain ⟨r4, hbe, htm⟩ := h
      obtain ⟨t, hrt, hg, hgid, htsp, hmax⟩ := tailMatch_sound htm
      refine ⟨specHostBe, t, Or.inl rfl, ?_, hg, hgid, htsp, hmax⟩
      rw [dropLit_some hbe, hrt]
      simp [specHostBe, litYoutu, litBeSlash]
    · rw [if_neg hc1] at h
      by_cases hc2 : c = 'b'
      · rw [if_pos hc2] at h
        subst hc2
        split at h
        · exact absurd h (by simp)
        · exact absurd h (by simp)
        · rename_i or2 c2 r2 hec
          by_cases hw : c2 = 'w'
          · rw [if_pos hw] at h
            subst hw
            rw [Option.bind_eq_some] at h
            obtain ⟨r5, hwa, htm⟩ := h
            obtain ⟨t, hrt, hg, hgid, htsp, hmax⟩ := tailMatch_sound htm
            refine ⟨specHostWatch, t, Or.inr (Or.inl rfl), ?_, hg, hgid, htsp, hmax⟩
            rw [dropLit_some hec, dropLit_some hwa, hrt]
            simp [specHostWatch, litYoutu, litECom, litWatch]
          · rw [if_neg hw] at h
            by_cases hv : c2 = 'v'
            · rw [if_pos hv] at h
              subst hv
              rw [Option.bind_eq_some] at h
              obtain ⟨r5, hsl, htm⟩ := h
              obtain ⟨t, hrt, hg, hgid, htsp, hmax⟩ := tailMatch_sound htm
              refine ⟨specHostV, t, Or.inr (Or.inr (Or.inl rfl)), ?_, hg, hgid, htsp, hmax⟩
              rw [dropLit_some hec, dropLit_some hsl, hrt]
              simp [specHostV, litYoutu, litECom, litSlash]
            · rw [if_neg hv] at h
              by_cases he : c2 = 'e'
              · rw [if_pos he] at h
                subst he
                rw [Option.bind_eq_some] at h
                obtain ⟨r5, hem, htm⟩ := h
                obtain ⟨t, hrt, hg, hgid, htsp, hmax⟩ := tailMatch_sound htm
                refine ⟨specHostEmbed, t, Or.inr (Or.inr (Or.inr (Or.inl rfl))), ?_,
                  hg, hgid, htsp, hmax⟩
                rw [dropLit_some hec, dropLit_some hem, hrt]
                simp [specHostEmbed, litYoutu, litECom, litEmbed]
              · rw [if_neg he] at h
                by_cases hu : c2 = 'u'
                · rw [if_pos hu] at h
                  subst hu
                  rw [Option.bind_eq_some] at h
                  obtain ⟨r3, hus, h2⟩ := h
                  rw [Option.bind_eq_some] at h2
                  obtain ⟨rs, hseg, hur⟩ := h2
                  obtain ⟨run, hrun, hrunw, hsplit⟩ := segStep_sound hseg
                  obtain ⟨segs, t, hsegs, hrs, hg, hgid, htsp, hmax⟩ := userRest_sound hur
                  refine ⟨specHostUserPre
                      ++ (((run :: segs).map (fun seg => seg ++ ['/'])).flatten), t,
                    Or.inr (Or.inr (Or.inr (Or.inr ⟨run :: segs, by simp, ?_, rfl⟩))),
                    ?_, hg, hgid, htsp, hmax⟩
                  · intro seg hseg2
                    rcases List.mem_cons.mp hseg2 with rfl | hseg3
                    · exact ⟨hrun, hrunw⟩
                    · exact hsegs seg hseg3
                  · rw [dropLit_some hec, dropLit_some hus, hsplit, hrs]
                    simp [specHostUserPre, litYoutu, litECom, litUser, List.append_assoc]
                · rw [if_neg hu] at h
                  exact absurd h (by simp)
      · rw [if_neg hc2] at h
        exact absurd h (by simp)

theorem matchUrl_sound {s g : List Char} (h : matchUrl s = some g) : SpecMatchMax s g := by
  unfold matchUrl at h
  cases h1 : dropScheme s with
  | none =>
    simp only [h1] at h
    exact Option.noConfusion h
  | some s1 =>
    simp only [h1] at h
    cases h2 : dropLit litYoutu (dropWww s1) with
    | none =>
      simp only [h2] at h
      exact Option.noConfusion h
    | some s2 =>
      simp only [h2] at h
      obtain ⟨host, t, hhost, heq, hg, hgid, htsp, hmax⟩ := matchHostAndTail_sound h
      obtain ⟨b, hb⟩ := dropScheme_sound h1
      obtain ⟨w, hw⟩ := dropWww_sound s1
      have hyoutu := dropLit_some h2
      refine ⟨t, ⟨b, w, host, hhost, ?_, hg, hgid, htsp⟩, hmax⟩
      rw [hb, hw, hyoutu, heq]

theorem matchUrl_complete {s id0 : List Char} (h : SpecMatch s id0) :
    matchUrl s ≠ none := by
  obtain ⟨trail, b, w, host, hhost, hurl, hne, hid, ht⟩ := h
  subst hurl
  unfold matchUrl
  rw [dropScheme_self]
  dsimp only
  have hhost_head : ∃ h2, host = 'y' :: h2 := by
    rcases hhost with rfl | rfl | rfl | rfl | ⟨segs, hsne, hsegs, rfl⟩
    · exact ⟨_, rfl⟩
    · exact ⟨_, rfl⟩
    · exact ⟨_, rfl⟩
    · exact ⟨_, rfl⟩
    · exact ⟨_, rfl⟩
  have hwww : dropWww (specWww w ++ (host ++ (id0 ++ trail))) = host ++ (id0 ++ trail) := by
    cases w
    · simp only [specWww, List.nil_append]
      obtain ⟨h2, hh2⟩ := hhost_head
      rw [hh2, List.cons_append]
      exact dropWww_noWww (by decide)
    · exact dropWww_www _
  rw [hwww]
  rcases hhost with rfl | rfl | rfl | rfl | ⟨segs, hsne, hsegs, rfl⟩
  · have hsplit : specHostBe ++ (id0 ++ trail)
        = litYoutu ++ ('.' :: (litBeSlash ++ (id0 ++ trail))) := by
      simp [specHostBe, litYoutu, litBeSlash]
    rw [hsplit, dropLit_self]
    dsimp only
    rw [matchHostAndTail, if_pos rfl, dropLit_self]
    obtain ⟨g, hg⟩ := tailMatch_complete hne hid ht
    simp [hg]
  · have hsplit : specHostWatch ++ (id0 ++ trail)
        = litYoutu ++ ('b' :: (litECom ++ (litWatch ++ (id0 ++ trail)))) := by
      simp [specHostWatch, litYoutu, litECom, litWatch]
    rw [hsplit, dropLit_self]
    dsimp only
    rw [matchHostAndTail, if_neg (by decide : ¬('b' = '.')), if_pos rfl, dropLit_self]
    have hw2 : litWatch ++ (id0 ++ trail)
        = 'w' :: (['a', 't', 'c', 'h', '?', 'v', '='] ++ (id0 ++ trail)) := by
      simp [litWatch]
    rw [hw2]
    dsimp only
    rw [if_pos rfl, ← hw2, dropLit_self]
    obtain ⟨g, hg⟩ := tailMatch_complete hne hid ht
    simp [hg]
  · have hsplit : specHostV ++ (id0 ++ trail)
        = litYoutu ++ ('b' :: (litECom ++ ('v' :: ('/' :: (id0 ++ trail))))) := by
      simp [specHostV, litYoutu, litECom]
    rw [hsplit, dropLit_self]
    dsimp only
    rw [matchHostAndTail, if_neg (by decide : ¬('b' = '.')), if_pos rfl, dropLit_self]
    dsimp only
    rw [if_neg (by decide : ¬('v' = 'w')), if_pos rfl]
    rw [show ('/' :: (id0 ++ trail)) = litSlash ++ (id0 ++ trail) from rfl, dropLit_self]
    obtain ⟨g, hg⟩ := tailMatch_complete hne hid ht
    simp [hg]
  · have hsplit : specHostEmbed ++ (id0 ++ trail)
        = litYoutu ++ ('b' :: (litECom ++ (litEmbed ++ (id0 ++ trail)))) := by
      simp [specHostEmbed, litYoutu, litECom, litEmbed]
    rw [hsplit, dropLit_self]
    dsimp only
    rw [matchHostAndTail, if_neg (by decide : ¬('b' = '.')), if_pos rfl, dropLit_self]
    have he2 : litEmbed ++ (id0 ++ trail)
        = 'e' :: (['m', 'b', 'e', 'd', '/'] ++ (id0 ++ trail)) := by
      simp [litEmbed]
    rw [he2]
    dsimp only
    rw [if_neg (by decide : ¬('e' = 'w')), if_neg (by decide : ¬('e' = 'v')), if_pos rfl,
        ← he2, dropLit_self]
    obtain ⟨g, hg⟩ := tailMatch_complete hne hid ht
    simp [hg]
  · have hsplit : (specHostUserPre ++ ((segs.map (fun seg => seg ++ ['/'])).flatten))
          ++ (id0 ++ trail)
        = litYoutu ++ ('b' :: (litECom
            ++ (litUser ++ (((segs.map (fun seg => seg ++ ['/'])).flatten)
                  ++ (id0 ++ trail))))) := by
      simp [specHostUserPre, litYoutu, litECom, litUser, List.append_assoc]
    rw [hsplit, dropLit_self]
    dsimp only
    rw [matchHostAndTail, if_neg (by decide : ¬('b' = '.')), if_pos rfl, dropLit_self]
    have hu2 : litUser ++ (((segs.map (fun seg => seg ++ ['/'])).flatten) ++ (id0 ++ trail))
        = 'u' :: (['s', 'e', 'r', '/']
            ++ (((segs.map (fun seg => seg ++ ['/'])).flatten) ++ (id0 ++ trail))) := by
      simp [litUser]
    rw [hu2]
    dsimp only
    rw [if_neg (by decide : ¬('u' = 'w')), if_neg (by decide : ¬('u' = 'v')),
        if_neg (by decide : ¬('u' = 'e')), if_pos rfl, ← hu2, dropLit_self]
    cases segs with
    | nil => exact absurd rfl hsne
    | cons s0 rest =>
      have hs0 : SpecSeg s0 := hsegs s0 (by simp)
      have hrest : ∀ s2 ∈ rest, SpecSeg s2 := fun s2 hs2 => hsegs s2 (by simp [hs2])
      have hflat : (((s0 :: rest).map (fun seg => seg ++ ['/'])).flatten) ++ (id0 ++ trail)
          = s0 ++ '/' :: (((rest.map (fun seg => seg ++ ['/'])).flatten)
              ++ (id0 ++ trail)) := by
        simp [List.append_assoc]
      rw [hflat]
      simp only [Option.some_bind]
      rw [segStep_complete _ hs0.1 hs0.2]
      have hur := userRest_complete rest hrest hne hid ht
      cases hu : userRest (((rest.map (fun seg => seg ++ ['/'])).flatten)
          ++ (id0 ++ trail)) with
      | none => exact absurd hu hur
      | some g3 => simp [hu]

/-- C3: for every string fully matching the URL grammar (scheme `http` or
    `https`, optional `www.`, one of the accepted youtube host forms, then an
    identifier of one or more characters excluding `&`, `#`, `?` and newline,
    then any trailing non-whitespace), `get_video_id` returns exactly the
    identifier run up to the first of `&`, `#`, `?`, or end-of-string; for
    every string that does not fully match, it returns `none`.  In particular
    the two example URLs of the claim behave as stated. -/
theorem get_video_id_grammar :
    (∀ url id, get_video_id url = some id → SpecMatchMax url.data id.data)
    ∧ (∀ url, (∃ id0, SpecMatch url.data id0) →
        ∃ id, get_video_id url = some id ∧ SpecMatchMax url.data id.data)
    ∧ get_video_id "https://www.youtube.com/watch?v=abc123&t=5s" = some "abc123"
    ∧ get_video_id "https://example.com/abc123" = none := by
  refine ⟨?_, ?_, ?_, ?_⟩
  · intro url id h
    unfold get_video_id at h
    cases hm : matchUrl url.data with
    | none => simp [hm] at h
    | some l =>
      simp only [hm, Option.map_some', Option.some.injEq] at h
      subst h
      exact matchUrl_sound hm
  · intro url h
    obtain ⟨id0, hmatch⟩ := h
    have hne := matchUrl_complete hmatch
    cases hm : matchUrl url.data with
    | none => exact absurd hm hne
    | some l =>
      refine ⟨⟨l⟩, ?_, ?_⟩
      · unfold get_video_id
        rw [hm]
        rfl
      · exact matchUrl_sound hm
  · decide
  · decide

theorem get_video_id_grammar_witness :
    SpecMatchMax ("https://www.youtube.com/watch?v=abc123&t=5s" : String).data
      ("abc123" : String).data :=
  get_video_id_grammar.1 "https://www.youtube.com/watch?v=abc123&t=5s" "abc123" (by decide)
